import Mathlib

/-!
Verification of the retrieval-and-ranking pipeline of the kb-api repository.

Python source is shallowly embedded in Lean:
* Python floats become exact rationals (`ℚ`) where the code performs only
  field operations, and reals (`ℝ`) where square roots appear
  (cosine similarity, MMR).
* Python dicts that preserve insertion order become association lists
  (`List (κ × ν)`) with first-match lookup, in-place update of existing
  keys, and append of fresh keys — matching CPython dict semantics.
* `datetime.now()` becomes an explicit `now : ℚ` argument (hours).
* External collaborators (the cross-encoder, the BM25 library) become
  function arguments / input lists, per the repository's own interface
  boundaries.
-/

set_option autoImplicit false

namespace KbApi

/-! ## Adaptive threshold — src/app/services/retrieve.py, calculate_adaptive_threshold -/

/-- Embedding of `calculate_adaptive_threshold` (src/app/services/retrieve.py,
lines 12–48): empty score list returns the base threshold; a top score above
0.7 returns 0.5; a top score below 0.4 returns 0.2; otherwise the base. -/
def calculate_adaptive_threshold (scores : List ℚ) (base_threshold : ℚ) : ℚ :=
  match scores with
  | [] => base_threshold
  | top_score :: _ =>
    if top_score > 0.7 then 0.5
    else if top_score < 0.4 then 0.2
    else base_threshold

/-! ## BM25 score normalization — src/app/services/hybrid_search.py, _compute_bm25_scores -/

/-- Python `max` over a non-empty list (head plus tail), as used on
`raw_scores` in `_compute_bm25_scores`. -/
def pyMax (x : ℚ) (xs : List ℚ) : ℚ :=
  xs.foldl max x

/-- Embedding of the normalization step of `_compute_bm25_scores`
(src/app/services/hybrid_search.py, lines 166–167).  The raw scores are
produced by the external `rank_bm25` collaborator and are taken here as the
input list.  Python `max` on an empty sequence raises, so the empty case is
unreachable for the non-empty batches the caller supplies. -/
def bm25_normalized_scores (raw_scores : List ℚ) : List ℚ :=
  match raw_scores with
  | [] => []
  | x :: xs =>
    let max_score := if pyMax x xs > 0 then pyMax x xs else 1
    (x :: xs).map (fun score => score / max_score)

theorem le_pyMax (xs : List ℚ) : ∀ (x : ℚ), ∀ s ∈ x :: xs, s ≤ pyMax x xs := by
  induction xs with
  | nil =>
    intro x s hs
    simp only [List.mem_singleton] at hs
    simp [pyMax, hs]
  | cons y ys ih =>
    intro x s hs
    have hstep : pyMax x (y :: ys) = pyMax (max x y) ys := by
      simp [pyMax]
    rw [hstep]
    simp only [List.mem_cons] at hs
    rcases hs with hs | hs | hs
    · subst hs
      exact le_trans (le_max_left s y) (ih (max s y) (max s y) (List.mem_cons_self _ _))
    · subst hs
      exact le_trans (le_max_right x s) (ih (max x s) (max x s) (List.mem_cons_self _ _))
    · exact ih (max x y) s (List.mem_cons_of_mem _ hs)

theorem pyMax_mem (xs : List ℚ) : ∀ (x : ℚ), pyMax x xs ∈ x :: xs := by
  induction xs with
  | nil => intro x; simp [pyMax]
  | cons y ys ih =>
    intro x
    have hstep : pyMax x (y :: ys) = pyMax (max x y) ys := by
      simp [pyMax]
    rw [hstep]
    have h := ih (max x y)
    rcases List.mem_cons.mp h with h | h
    · rcases max_choice x y with hc | hc
      · rw [h, hc]; exact List.mem_cons_self _ _
      · rw [h, hc]; exact List.mem_cons_of_mem _ (List.mem_cons_self _ _)
    · exact List.mem_cons_of_mem _ (List.mem_cons_of_mem _ h)

/-- C5: for every descending score list, `calculate_adaptive_threshold`
returns 0.5 when the top score is above 0.7, 0.2 when it is below 0.4,
and the caller-supplied base threshold otherwise; the empty list returns
the base threshold unchanged.  In particular `[0.9, 0.6, 0.5]` gives 0.5,
`[0.35, 0.2]` gives 0.2, and `[0.5, 0.4]` gives the base. -/
theorem adaptive_threshold_correct (base : ℚ) (top_score : ℚ) (rest : List ℚ) :
    calculate_adaptive_threshold [] base = base ∧
    (top_score > 0.7 → calculate_adaptive_threshold (top_score :: rest) base = 0.5) ∧
    (top_score < 0.4 → calculate_adaptive_threshold (top_score :: rest) base = 0.2) ∧
    (top_score ≤ 0.7 → 0.4 ≤ top_score →
      calculate_adaptive_threshold (top_score :: rest) base = base) ∧
    calculate_adaptive_threshold [0.9, 0.6, 0.5] base = 0.5 ∧
    calculate_adaptive_threshold [0.35, 0.2] base = 0.2 ∧
    calculate_adaptive_threshold [0.5, 0.4] base = base := by
  refine ⟨rfl, ?_, ?_, ?_, ?_, ?_, ?_⟩
  · intro h
    simp only [calculate_adaptive_threshold, if_pos h]
  · intro h
    have hnot : ¬ top_score > (0.7 : ℚ) := by
      intro hc
      have : (0.4 : ℚ) < 0.7 := by norm_num
      exact absurd (lt_trans this hc) (not_lt.mpr (le_of_lt h))
    simp only [calculate_adaptive_threshold, if_neg hnot, if_pos h]
  · intro h1 h2
    have hnot1 : ¬ top_score > (0.7 : ℚ) := not_lt.mpr h1
    have hnot2 : ¬ top_score < (0.4 : ℚ) := not_lt.mpr h2
    simp only [calculate_adaptive_threshold, if_neg hnot1, if_neg hnot2]
  · simp only [calculate_adaptive_threshold]
    norm_num
  · simp only [calculate_adaptive_threshold]
    norm_num
  · simp only [calculate_adaptive_threshold]
    norm_num

/-- Witness for `adaptive_threshold_correct` at concrete inputs. -/
theorem adaptive_threshold_correct_witness :
    calculate_adaptive_threshold [(0.8 : ℚ)] 0.3 = 0.5 ∧
    calculate_adaptive_threshold [(0.3 : ℚ)] 0.3 = 0.2 ∧
    calculate_adaptive_threshold [(0.5 : ℚ)] 0.3 = 0.3 :=
  ⟨(adaptive_threshold_correct 0.3 0.8 []).2.1 (by norm_num),
   (adaptive_threshold_correct 0.3 0.3 []).2.2.1 (by norm_num),
   (adaptive_threshold_correct 0.3 0.5 []).2.2.2.1 (by norm_num) (by norm_num)⟩

/-- C7: for a non-empty batch of raw BM25 scores (all nonnegative, as
produced by the BM25 collaborator), the normalized scores are the raw
scores divided by the batch maximum (by 1 when the maximum is 0): the
output has the same length, every normalized score lies in [0,1], any
position holding the maximum raw score normalizes to exactly 1 when the
maximum is positive, and if every raw score is 0 every normalized score
is 0. -/
theorem bm25_normalization_correct (x : ℚ) (xs : List ℚ)
    (hnn : ∀ s ∈ x :: xs, 0 ≤ s) :
    (bm25_normalized_scores (x :: xs)).length = (x :: xs).length ∧
    (∀ t ∈ bm25_normalized_scores (x :: xs), 0 ≤ t ∧ t ≤ 1) ∧
    (0 < pyMax x xs → ∀ i : ℕ, (x :: xs)[i]? = some (pyMax x xs) →
      (bm25_normalized_scores (x :: xs))[i]? = some 1) ∧
    ((∀ s ∈ x :: xs, s = 0) → ∀ t ∈ bm25_normalized_scores (x :: xs), t = 0) := by
  have hunfold : bm25_normalized_scores (x :: xs) =
      (x :: xs).map (fun score => score / (if pyMax x xs > 0 then pyMax x xs else 1)) := rfl
  refine ⟨by rw [hunfold]; exact List.length_map _ _, ?_, ?_, ?_⟩
  · intro t ht
    rw [hunfold] at ht
    rcases List.mem_map.mp ht with ⟨s, hs, hmap⟩
    by_cases hpos : pyMax x xs > 0
    · rw [if_pos hpos] at hmap
      refine hmap ▸ ⟨div_nonneg (hnn s hs) (le_of_lt hpos), ?_⟩
      exact (div_le_one hpos).mpr (le_pyMax xs x s hs)
    · rw [if_neg hpos] at hmap
      have hmax0 : pyMax x xs = 0 :=
        le_antisymm (not_lt.mp hpos) (hnn _ (pyMax_mem xs x))
      have hs0 : s = 0 :=
        le_antisymm (hmax0 ▸ le_pyMax xs x s hs) (hnn s hs)
      rw [← hmap, hs0]
      norm_num
  · intro hpos i hi
    have hval : pyMax x xs / (if pyMax x xs > 0 then pyMax x xs else 1) = 1 := by
      rw [if_pos hpos]
      exact div_self (ne_of_gt hpos)
    rw [hunfold, List.getElem?_map, hi, Option.map_some', hval]
  · intro hall t ht
    rw [hunfold] at ht
    rcases List.mem_map.mp ht with ⟨s, hs, hmap⟩
    rw [← hmap, hall s hs]
    simp

/-- Witness for `bm25_normalization_correct` at concrete inputs. -/
theorem bm25_normalization_correct_witness :
    (∀ t ∈ bm25_normalized_scores [(2 : ℚ), 1, 4], 0 ≤ t ∧ t ≤ 1) ∧
    (bm25_normalized_scores [(2 : ℚ), 1, 4])[2]? = some 1 :=
  ⟨(bm25_normalization_correct 2 [1, 4] (by norm_num)).2.1,
   (bm25_normalization_correct 2 [1, 4] (by norm_num)).2.2.1
     (by norm_num [pyMax]) 2 (by norm_num [pyMax])⟩

/-! ## Reciprocal Rank Fusion — src/app/services/rrf.py, reciprocal_rank_fusion -/

/-- First-match lookup on an association list, the read side of a Python
dict whose iteration order is insertion order. -/
def alookup : List (ℤ × ℚ) → ℤ → Option ℚ
  | [], _ => none
  | (k, v) :: rest, cid => if k = cid then some v else alookup rest cid

/-- `rrf_scores[chunk_id] += v` on a Python `defaultdict(float)`: an
existing key is updated in place (keeping its position in iteration
order), a fresh key is appended at the end starting from 0. -/
def rrfBump (acc : List (ℤ × ℚ)) (cid : ℤ) (w : ℚ) : List (ℤ × ℚ) :=
  match acc with
  | [] => [(cid, w)]
  | (k, v) :: rest => if k = cid then (k, v + w) :: rest else (k, v) :: rrfBump rest cid w

/-- One `for rank, chunk in enumerate(results)` pass of
`reciprocal_rank_fusion`: the chunk id at 0-based position `r` receives
`1 / (k + rank + 1)` (src/app/services/rrf.py, lines 43–56). -/
def rrfAccum (kconst : ℚ) : List (ℤ × ℚ) → List ℤ → ℕ → List (ℤ × ℚ)
  | acc, [], _ => acc
  | acc, cid :: rest, r =>
    rrfAccum kconst (rrfBump acc cid (1 / (kconst + (r : ℚ) + 1))) rest (r + 1)

/-- Python `sorted(l, key=key, reverse=True)`: a stable descending sort by
`key`.  `List.insertionSort` with this relation is stable and places an
earlier element before later elements of equal key, exactly like CPython's
stable sort. -/
def pySortDescBy {α : Type} (key : α → ℚ) (l : List α) : List α :=
  List.insertionSort (fun p q => key q ≤ key p) l

/-- Embedding of `reciprocal_rank_fusion` (src/app/services/rrf.py, lines
9–78) on chunk ids.  The chunk payloads ride along unchanged in the source
and are dropped here; the result pairs each distinct id with its
`rrf_score` (which the source also copies into `score`), sorted descending
by score with Python's stable sort. -/
def reciprocal_rank_fusion (vector_results bm25_results : List ℤ) (kconst : ℚ) :
    List (ℤ × ℚ) :=
  pySortDescBy Prod.snd
    (rrfAccum kconst (rrfAccum kconst [] vector_results 0) bm25_results 0)

/-- 0-based index of the first occurrence of `x`. -/
def idxOf0 : List ℤ → ℤ → ℕ
  | [], _ => 0
  | a :: rest, x => if a = x then 0 else idxOf0 rest x + 1

/-- The RRF score formula as worded by the spec, for comparison with the
source embedding: `Σ 1/(60 + rank_i)` over every list containing the id,
with 1-indexed rank. -/
def rrf_score_spec (vector_results bm25_results : List ℤ) (cid : ℤ) : ℚ :=
  (if cid ∈ vector_results
    then 1 / (60 + ((idxOf0 vector_results cid + 1 : ℕ) : ℚ)) else 0) +
  (if cid ∈ bm25_results
    then 1 / (60 + ((idxOf0 bm25_results cid + 1 : ℕ) : ℚ)) else 0)

theorem rrfBump_alookup (cid : ℤ) (w : ℚ) :
    ∀ (acc : List (ℤ × ℚ)) (x : ℤ),
    alookup (rrfBump acc cid w) x =
      if x = cid then some ((alookup acc cid).getD 0 + w) else alookup acc x := by
  intro acc
  induction acc with
  | nil =>
    intro x
    by_cases hx : x = cid
    · simp [rrfBump, alookup, hx]
    · have hcx : ¬ cid = x := fun h => hx h.symm
      simp [rrfBump, alookup, hx, hcx]
  | cons p rest ih =>
    intro x
    obtain ⟨k, v⟩ := p
    by_cases hk : k = cid
    · subst hk
      by_cases hx : x = k
      · subst hx
        simp [rrfBump, alookup]
      · have hkx : ¬ k = x := fun h => hx h.symm
        simp [rrfBump, alookup, hx, hkx]
    · by_cases hx : x = cid
      · subst hx
        have hk' : ¬ k = x := hk
        simp [rrfBump, alookup, hk, hk', ih]
      · by_cases hkx : k = x
        · subst hkx
          simp [rrfBump, alookup, hk, hx]
        · simp [rrfBump, alookup, hk, hkx, hx, ih]

theorem rrfBump_keys (cid : ℤ) (w : ℚ) :
    ∀ (acc : List (ℤ × ℚ)),
    (rrfBump acc cid w).map Prod.fst =
      if cid ∈ acc.map Prod.fst then acc.map Prod.fst
      else acc.map Prod.fst ++ [cid] := by
  intro acc
  induction acc with
  | nil => simp [rrfBump]
  | cons p rest ih =>
    obtain ⟨k, v⟩ := p
    by_cases hk : k = cid
    · subst hk
      simp [rrfBump]
    · have hne : ¬ cid = k := fun h => hk h.symm
      by_cases hmem : cid ∈ rest.map Prod.fst
      · simp [rrfBump, hk, ih, hmem, hne]
      · simp [rrfBump, hk, ih, hmem, hne]

theorem rrfBump_keys_nodup (cid : ℤ) (w : ℚ) (acc : List (ℤ × ℚ))
    (h : (acc.map Prod.fst).Nodup) : ((rrfBump acc cid w).map Prod.fst).Nodup := by
  rw [rrfBump_keys]
  by_cases hmem : cid ∈ acc.map Prod.fst
  · rw [if_pos hmem]; exact h
  · rw [if_neg hmem]
    refine List.Nodup.append h (List.nodup_singleton cid) ?_
    intro a ha hb
    rw [List.mem_singleton] at hb
    exact hmem (hb ▸ ha)

theorem rrfAccum_keys_nodup (kconst : ℚ) (l : List ℤ) :
    ∀ (acc : List (ℤ × ℚ)) (r : ℕ), (acc.map Prod.fst).Nodup →
      ((rrfAccum kconst acc l r).map Prod.fst).Nodup := by
  induction l with
  | nil => intro acc r h; exact h
  | cons cid rest ih =>
    intro acc r h
    exact ih _ (r + 1) (rrfBump_keys_nodup cid _ acc h)

theorem rrfAccum_alookup (kconst : ℚ) (l : List ℤ) (hl : l.Nodup) :
    ∀ (acc : List (ℤ × ℚ)) (r : ℕ) (x : ℤ),
    alookup (rrfAccum kconst acc l r) x =
      if x ∈ l
        then some ((alookup acc x).getD 0 + 1 / (kconst + ((r + idxOf0 l x : ℕ) : ℚ) + 1))
        else alookup acc x := by
  induction l with
  | nil =>
    intro acc r x
    simp [rrfAccum]
  | cons cid rest ih =>
    intro acc r x
    have hcid : cid ∉ rest := (List.nodup_cons.mp hl).1
    have hrest : rest.Nodup := (List.nodup_cons.mp hl).2
    show alookup (rrfAccum kconst (rrfBump acc cid (1 / (kconst + (r : ℚ) + 1))) rest (r + 1)) x = _
    rw [ih hrest _ (r + 1) x]
    by_cases hx : x = cid
    · subst hx
      have hxr : x ∉ rest := hcid
      rw [if_neg hxr, if_pos (List.mem_cons_self x rest)]
      rw [rrfBump_alookup]
      rw [if_pos rfl]
      have hidx : idxOf0 (x :: rest) x = 0 := by simp [idxOf0]
      rw [hidx]
      norm_num
    · have hxmem : x ∈ cid :: rest ↔ x ∈ rest := by
        simp [List.mem_cons, hx]
      rw [rrfBump_alookup, if_neg hx]
      by_cases hxr : x ∈ rest
      · rw [if_pos hxr, if_pos (hxmem.mpr hxr)]
        have hcx : ¬ cid = x := fun h => hx h.symm
        have hidx : idxOf0 (cid :: rest) x = idxOf0 rest x + 1 := by
          simp [idxOf0, hcx]
        rw [hidx]
        have harith : ((r + 1 + idxOf0 rest x : ℕ) : ℚ) = ((r + (idxOf0 rest x + 1) : ℕ) : ℚ) := by
          push_cast
          ring
        rw [harith]
      · rw [if_neg hxr, if_neg (fun h => hxr (hxmem.mp h))]

theorem alookup_eq_some_iff_mem (cid : ℤ) (s : ℚ) :
    ∀ (acc : List (ℤ × ℚ)), ((acc.map Prod.fst).Nodup) →
    ((cid, s) ∈ acc ↔ alookup acc cid = some s) := by
  intro acc
  induction acc with
  | nil => intro _; simp [alookup]
  | cons p rest ih =>
    intro h
    obtain ⟨k, v⟩ := p
    have h' : (k :: rest.map Prod.fst).Nodup := h
    have hk : k ∉ rest.map Prod.fst := (List.nodup_cons.mp h').1
    have hrest : (rest.map Prod.fst).Nodup := (List.nodup_cons.mp h').2
    constructor
    · intro hmem
      rcases List.mem_cons.mp hmem with heq | htail
      · have h1 : cid = k := congrArg Prod.fst heq
        have h2 : s = v := congrArg Prod.snd heq
        subst h1; subst h2
        simp [alookup]
      · have hcidrest : cid ∈ rest.map Prod.fst :=
          List.mem_map.mpr ⟨(cid, s), htail, rfl⟩
        have hkne : ¬ k = cid := fun h' => hk (h' ▸ hcidrest)
        simp only [alookup, if_neg hkne]
        exact (ih hrest).mp htail
    · intro hlk
      simp only [alookup] at hlk
      by_cases hkc : k = cid
      · rw [if_pos hkc] at hlk
        have : v = s := Option.some.inj hlk
        subst hkc; subst this
        exact List.mem_cons_self _ _
      · rw [if_neg hkc] at hlk
        exact List.mem_cons_of_mem _ ((ih hrest).mpr hlk)

/-- C1: Reciprocal Rank Fusion.  For any two duplicate-free ranked id
lists, the fused output contains exactly the ids of either list, each with
score `Σ 1/(60 + rank)` (1-indexed rank) over the lists containing it; the
output is sorted descending by score; and fusing `[1,2,3]` with `[2,1,3]`
yields scores `1/61+1/62`, `1/62+1/61`, `1/63+1/63` in output order
`[1, 2, 3]` (the 1–2 tie broken by first-encounter order). -/
theorem rrf_correct (v b : List ℤ) (hv : v.Nodup) (hb : b.Nodup) :
    (∀ cid s, ((cid, s) ∈ reciprocal_rank_fusion v b 60 ↔
      ((cid ∈ v ∨ cid ∈ b) ∧ s = rrf_score_spec v b cid))) ∧
    List.Sorted (fun p q : ℤ × ℚ => q.2 ≤ p.2) (reciprocal_rank_fusion v b 60) ∧
    reciprocal_rank_fusion [1, 2, 3] [2, 1, 3] 60 =
      [(1, 1/61 + 1/62), (2, 1/62 + 1/61), (3, 1/63 + 1/63)] := by
  have hperm : ∀ cid s, (cid, s) ∈ reciprocal_rank_fusion v b 60 ↔
      (cid, s) ∈ rrfAccum 60 (rrfAccum 60 [] v 0) b 0 := by
    intro cid s
    exact (List.perm_insertionSort _ _).mem_iff
  have hnodup : ((rrfAccum 60 (rrfAccum 60 [] v 0) b 0).map Prod.fst).Nodup :=
    rrfAccum_keys_nodup 60 b _ 0 (rrfAccum_keys_nodup 60 v [] 0 (by simp))
  have hval : ∀ cid, alookup (rrfAccum 60 (rrfAccum 60 [] v 0) b 0) cid =
      if cid ∈ v ∨ cid ∈ b then some (rrf_score_spec v b cid) else none := by
    intro cid
    rw [rrfAccum_alookup 60 b hb, rrfAccum_alookup 60 v hv]
    have hnil : alookup [] cid = none := rfl
    rw [hnil]
    by_cases hbv : cid ∈ b <;> by_cases hvv : cid ∈ v <;>
      simp only [if_pos, if_neg, hbv, hvv, if_true, if_false, or_true, true_or,
        or_self, Option.getD_some, Option.getD_none, Option.some.injEq,
        rrf_score_spec, ite_true, ite_false]
    · push_cast
      ring
    · push_cast
      ring
    · push_cast
      ring
  refine ⟨?_, ?_, ?_⟩
  · intro cid s
    rw [hperm, alookup_eq_some_iff_mem cid s _ hnodup, hval cid]
    by_cases hmem : cid ∈ v ∨ cid ∈ b
    · simp only [if_pos hmem, Option.some.injEq]
      constructor
      · intro h
        exact ⟨hmem, h.symm⟩
      · intro ⟨_, h⟩
        exact h.symm
    · simp only [if_neg hmem]
      constructor
      · intro h
        exact absurd h (by simp)
      · intro ⟨h, _⟩
        exact absurd h hmem
  · exact @List.sorted_insertionSort (ℤ × ℚ) (fun p q => q.2 ≤ p.2) _
      ⟨fun a b => le_total b.2 a.2⟩ ⟨fun a b c h1 h2 => le_trans h2 h1⟩ _
  · norm_num [reciprocal_rank_fusion, pySortDescBy, rrfAccum, rrfBump,
      List.insertionSort, List.orderedInsert]

/-- Witness for `rrf_correct`: the concrete fusion from the claim, obtained
by applying the theorem at duplicate-free lists. -/
theorem rrf_correct_witness :
    reciprocal_rank_fusion [1, 2, 3] [2, 1, 3] 60 =
      [(1, 1/61 + 1/62), (2, 1/62 + 1/61), (3, 1/63 + 1/63)] :=
  (rrf_correct [1, 2, 3] [2, 1, 3] (by decide) (by decide)).2.2

/-! ## Response cache — src/app/services/cache.py, ResponseCache -/

/-- Python strings as lists of characters. -/
abbrev PyStr := List Char

/-- Python `str.lower()`, character-wise (the queries here are ASCII). -/
def pyLower (s : PyStr) : PyStr := s.map Char.toLower

/-- The whitespace characters stripped by Python `str.strip()`. -/
def pySpace (c : Char) : Bool := c.isWhitespace

/-- Left part of Python `str.strip()`. -/
def pyLstrip (s : PyStr) : PyStr := s.dropWhile pySpace

/-- Right part of Python `str.strip()`. -/
def pyRstrip (s : PyStr) : PyStr := (s.reverse.dropWhile pySpace).reverse

/-- Python `str.strip()`: drop leading and trailing whitespace. -/
def pyStrip (s : PyStr) : PyStr := pyRstrip (pyLstrip s)

/-- Python `sorted` on a list of ints: a stable ascending sort. -/
def pySorted (l : List ℤ) : List ℤ := List.insertionSort (fun a b => a ≤ b) l

/-- The data canonically serialized (`json.dumps` with `sort_keys=True`)
and hashed with SHA-256 by `ResponseCache._generate_cache_key`
(src/app/services/cache.py, lines 31–59).  The serialization is injective
on this data and the digest is a deterministic function of the serialized
string, so the derived key is modeled by the key data itself: two calls
produce the same hexdigest exactly when this data coincides (up to SHA-256
collisions). -/
structure CacheKeyData where
  query : PyStr
  doc_ids : List ℤ
  top_k : ℤ
deriving DecidableEq

/-- The `sorted_doc_ids = sorted(doc_ids) if doc_ids else []` step of
`_generate_cache_key`: `None` and `[]` are both falsy and give `[]`. -/
def sorted_doc_ids_of (doc_ids : Option (List ℤ)) : List ℤ :=
  match doc_ids with
  | none => []
  | some l => if l = [] then [] else pySorted l

/-- Embedding of `_generate_cache_key`: lowercase then strip the query,
sort the doc ids, keep `top_k`. -/
def generate_cache_key (query : PyStr) (doc_ids : Option (List ℤ)) (top_k : ℤ) :
    CacheKeyData :=
  ⟨pyStrip (pyLower query), sorted_doc_ids_of doc_ids, top_k⟩

/-- A cache entry `{"response": …, "cached_at": …}`; `cached_at` in hours. -/
structure CacheEntry (ρ : Type) where
  response : ρ
  cached_at : ℚ
deriving DecidableEq

/-- The `ResponseCache` state: the backing dict as an insertion-ordered
association list plus configuration (src/app/services/cache.py, lines
15–29). -/
structure ResponseCache (ρ : Type) where
  cache : List (CacheKeyData × CacheEntry ρ)
  max_size : ℕ
  ttl_hours : ℚ
deriving DecidableEq

/-- Python dict read `d.get(k)` / `k in d`: the (unique) entry for a key. -/
def dictFind {κ ν : Type} [DecidableEq κ] : List (κ × ν) → κ → Option ν
  | [], _ => none
  | (k, v) :: rest, x => if k = x then some v else dictFind rest x

/-- Python dict write `d[k] = v`: update in place if the key is present
(keeping its position in iteration order), else append. -/
def dictSet {κ ν : Type} [DecidableEq κ] : List (κ × ν) → κ → ν → List (κ × ν)
  | [], x, v => [(x, v)]
  | (k, w) :: rest, x, v =>
    if k = x then (k, v) :: rest else (k, w) :: dictSet rest x v

/-- Python `del d[k]`: remove the entry holding the key (the source only
deletes keys it has just observed to be present). -/
def dictDel {κ ν : Type} [DecidableEq κ] : List (κ × ν) → κ → List (κ × ν)
  | [], _ => []
  | (k, w) :: rest, x => if k = x then rest else (k, w) :: dictDel rest x

/-- Embedding of `ResponseCache.get` (src/app/services/cache.py, lines
61–90), with `datetime.now()` passed explicitly as `now` (in hours): a
present, unexpired entry is a hit and leaves the store unchanged; a
present, expired entry is deleted and the call is a miss; an absent key is
a miss. -/
def ResponseCache.get {ρ : Type} (c : ResponseCache ρ) (query : PyStr)
    (doc_ids : Option (List ℤ)) (top_k : ℤ) (now : ℚ) :
    Option ρ × ResponseCache ρ :=
  let cache_key := generate_cache_key query doc_ids top_k
  match dictFind c.cache cache_key with
  | some cached_item =>
    let expiry_time := cached_item.cached_at + c.ttl_hours
    if now < expiry_time then (some cached_item.response, c)
    else (none, { c with cache := dictDel c.cache cache_key })
  | none => (none, c)

/-- Embedding of `ResponseCache.set` (src/app/services/cache.py, lines
92–116): when the store already holds at least `max_size` entries, the
first entry in insertion order (`next(iter(self.cache))`) is deleted
before the write.  Python raises when evicting from an empty dict, which
is unreachable when `max_size > 0`; that case is mapped to the empty
store. -/
def ResponseCache.set {ρ : Type} (c : ResponseCache ρ) (query : PyStr)
    (doc_ids : Option (List ℤ)) (top_k : ℤ) (response : ρ) (now : ℚ) :
    ResponseCache ρ :=
  let cache_key := generate_cache_key query doc_ids top_k
  let store :=
    if c.max_size ≤ c.cache.length then
      match c.cache with
      | [] => []
      | (oldest_key, _) :: _ => dictDel c.cache oldest_key
    else c.cache
  { c with cache := dictSet store cache_key ⟨response, now⟩ }

theorem dictFind_dictSet_self {κ ν : Type} [DecidableEq κ] (k : κ) (v : ν) :
    ∀ s : List (κ × ν), dictFind (dictSet s k v) k = some v := by
  intro s
  induction s with
  | nil => simp [dictSet, dictFind]
  | cons p rest ih =>
    obtain ⟨k', w⟩ := p
    by_cases hk : k' = k
    · simp [dictSet, dictFind, hk]
    · simp [dictSet, dictFind, hk, ih]

theorem dictFind_dictSet_ne {κ ν : Type} [DecidableEq κ] (k x : κ) (v : ν)
    (hx : x ≠ k) : ∀ s : List (κ × ν), dictFind (dictSet s k v) x = dictFind s x := by
  intro s
  induction s with
  | nil =>
    have : ¬ k = x := fun h => hx h.symm
    simp [dictSet, dictFind, this]
  | cons p rest ih =>
    obtain ⟨k', w⟩ := p
    by_cases hk : k' = k
    · subst hk
      have : ¬ k' = x := fun h => hx h.symm
      simp [dictSet, dictFind, this]
    · by_cases hk'x : k' = x
      · simp [dictSet, dictFind, hk, hk'x, hx]
      · simp [dictSet, dictFind, hk, hk'x, ih]

theorem dictFind_dictDel_ne {κ ν : Type} [DecidableEq κ] (k x : κ)
    (hx : x ≠ k) : ∀ s : List (κ × ν), dictFind (dictDel s k) x = dictFind s x := by
  intro s
  induction s with
  | nil => simp [dictDel]
  | cons p rest ih =>
    obtain ⟨k', w⟩ := p
    by_cases hk : k' = k
    · subst hk
      have : ¬ k' = x := fun h => hx h.symm
      simp [dictDel, dictFind, this]
    · by_cases hk'x : k' = x
      · simp [dictDel, dictFind, hk, hk'x, hx]
      · simp [dictDel, dictFind, hk, hk'x, ih]

theorem dictFind_eq_none_of_not_mem {κ ν : Type} [DecidableEq κ] (x : κ) :
    ∀ s : List (κ × ν), x ∉ s.map Prod.fst → dictFind s x = none := by
  intro s
  induction s with
  | nil => intro _; rfl
  | cons p rest ih =>
    intro h
    obtain ⟨k, w⟩ := p
    simp only [List.map_cons, List.mem_cons] at h
    push_neg at h
    have hk : ¬ k = x := fun h' => h.1 h'.symm
    simp [dictFind, hk, ih h.2]

theorem dictFind_dictDel_self {κ ν : Type} [DecidableEq κ] (k : κ) :
    ∀ s : List (κ × ν), (s.map Prod.fst).Nodup → dictFind (dictDel s k) k = none := by
  intro s
  induction s with
  | nil => intro _; rfl
  | cons p rest ih =>
    intro h
    obtain ⟨k', w⟩ := p
    have h' : (k' :: rest.map Prod.fst).Nodup := h
    have hk' : k' ∉ rest.map Prod.fst := (List.nodup_cons.mp h').1
    have hrest : (rest.map Prod.fst).Nodup := (List.nodup_cons.mp h').2
    by_cases hk : k' = k
    · subst hk
      simp only [dictDel, if_pos rfl]
      exact dictFind_eq_none_of_not_mem k' rest hk'
    · simp [dictDel, dictFind, hk, ih hrest]

theorem dictSet_length_le {κ ν : Type} [DecidableEq κ] (k : κ) (v : ν) :
    ∀ s : List (κ × ν), (dictSet s k v).length ≤ s.length + 1 := by
  intro s
  induction s with
  | nil => simp [dictSet]
  | cons p rest ih =>
    obtain ⟨k', w⟩ := p
    by_cases hk : k' = k
    · simp [dictSet, hk]
    · simp only [dictSet, if_neg hk, List.length_cons]
      exact Nat.succ_le_succ ih

theorem dictSet_keys_nodup {κ ν : Type} [DecidableEq κ] (k : κ) (v : ν) :
    ∀ s : List (κ × ν), (s.map Prod.fst).Nodup →
      ((dictSet s k v).map Prod.fst).Nodup := by
  intro s
  induction s with
  | nil => intro _; simp [dictSet]
  | cons p rest ih =>
    intro h
    obtain ⟨k', w⟩ := p
    have h' : (k' :: rest.map Prod.fst).Nodup := h
    have hk' : k' ∉ rest.map Prod.fst := (List.nodup_cons.mp h').1
    have hrest : (rest.map Prod.fst).Nodup := (List.nodup_cons.mp h').2
    by_cases hk : k' = k
    · subst hk
      simpa [dictSet] using h'
    · have hkeys : (dictSet rest k v).map Prod.fst =
          if k ∈ rest.map Prod.fst then rest.map Prod.fst
          else rest.map Prod.fst ++ [k] := by
        clear ih h h' hk' hrest
        induction rest with
        | nil => simp [dictSet]
        | cons q rest2 ih2 =>
          obtain ⟨k2, w2⟩ := q
          by_cases hk2 : k2 = k
          · subst hk2
            simp [dictSet]
          · have hne : ¬ k = k2 := fun h => hk2 h.symm
            by_cases hmem : k ∈ rest2.map Prod.fst
            · simp [dictSet, hk2, ih2, hmem, hne]
            · simp [dictSet, hk2, ih2, hmem, hne]
      simp only [dictSet, if_neg hk, List.map_cons]
      refine List.nodup_cons.mpr ⟨?_, ih hrest⟩
      rw [hkeys]
      by_cases hmem : k ∈ rest.map Prod.fst
      · rw [if_pos hmem]; exact hk'
      · rw [if_neg hmem]
        intro hcontra
        rcases List.mem_append.mp hcontra with hcl | hcr
        · exact hk' hcl
        · exact hk (List.mem_singleton.mp hcr)

theorem mem_keys_of_mem_keys_dictDel {κ ν : Type} [DecidableEq κ] (k x : κ) :
    ∀ s : List (κ × ν), x ∈ (dictDel s k).map Prod.fst → x ∈ s.map Prod.fst := by
  intro s
  induction s with
  | nil => intro h; exact h
  | cons p rest ih =>
    intro h
    obtain ⟨k', w⟩ := p
    by_cases hk : k' = k
    · rw [dictDel, if_pos hk] at h
      exact List.mem_cons_of_mem _ h
    · rw [dictDel, if_neg hk] at h
      rcases List.mem_cons.mp h with h1 | h1
      · exact List.mem_cons.mpr (Or.inl h1)
      · exact List.mem_cons_of_mem _ (ih h1)

theorem dictDel_keys_nodup {κ ν : Type} [DecidableEq κ] (k : κ) :
    ∀ s : List (κ × ν), (s.map Prod.fst).Nodup →
      ((dictDel s k).map Prod.fst).Nodup := by
  intro s
  induction s with
  | nil => intro h; exact h
  | cons p rest ih =>
    intro h
    obtain ⟨k', w⟩ := p
    have h' : (k' :: rest.map Prod.fst).Nodup := h
    have hk' : k' ∉ rest.map Prod.fst := (List.nodup_cons.mp h').1
    have hrest : (rest.map Prod.fst).Nodup := (List.nodup_cons.mp h').2
    by_cases hk : k' = k
    · rw [dictDel, if_pos hk]
      exact hrest
    · rw [dictDel, if_neg hk, List.map_cons]
      refine List.nodup_cons.mpr ⟨?_, ih hrest⟩
      intro hc
      exact hk' (mem_keys_of_mem_keys_dictDel k k' rest hc)

theorem set_cache_keys_nodup {ρ : Type} (c : ResponseCache ρ) (q : PyStr)
    (d : Option (List ℤ)) (tk : ℤ) (resp : ρ) (now : ℚ)
    (h : (c.cache.map Prod.fst).Nodup) :
    (((c.set q d tk resp now).cache).map Prod.fst).Nodup := by
  show ((dictSet _ _ _).map Prod.fst).Nodup
  apply dictSet_keys_nodup
  by_cases hfull : c.max_size ≤ c.cache.length
  · rw [if_pos hfull]
    rcases hc : c.cache with _ | ⟨⟨ok, oe⟩, rest⟩
    · simp
    · show ((dictDel ((ok, oe) :: rest) ok).map Prod.fst).Nodup
      exact dictDel_keys_nodup ok _ (hc ▸ h)
  · rw [if_neg hfull]
    exact h

/-- C3: FIFO eviction.  With a positive capacity, duplicate-free keys and
the size invariant: `set` never grows the store beyond `max_size`; when
the store is exactly at `max_size`, the first-inserted (oldest) entry is
the one evicted — it is gone afterwards (unless re-written by the same
key) while every other entry survives unchanged; below capacity nothing
is evicted; and a cache hit (`get`) never reorders or changes the store,
so eviction is independent of access recency. -/
theorem cache_fifo_eviction {ρ : Type} (c : ResponseCache ρ) (q : PyStr)
    (d : Option (List ℤ)) (tk : ℤ) (resp : ρ) (now : ℚ)
    (hpos : 0 < c.max_size)
    (hnodup : (c.cache.map Prod.fst).Nodup)
    (hbound : c.cache.length ≤ c.max_size) :
    ((c.set q d tk resp now).cache.length ≤ c.max_size) ∧
    (∀ ok oe rest, c.cache = (ok, oe) :: rest → c.cache.length = c.max_size →
      ((c.set q d tk resp now).cache =
        dictSet rest (generate_cache_key q d tk) ⟨resp, now⟩ ∧
      (generate_cache_key q d tk ≠ ok →
        dictFind (c.set q d tk resp now).cache ok = none) ∧
      (∀ k', k' ≠ ok → k' ≠ generate_cache_key q d tk →
        dictFind (c.set q d tk resp now).cache k' = dictFind c.cache k'))) ∧
    (c.cache.length < c.max_size →
      ∀ k', k' ≠ generate_cache_key q d tk →
        dictFind (c.set q d tk resp now).cache k' = dictFind c.cache k') ∧
    (∀ (q2 : PyStr) (d2 : Option (List ℤ)) (tk2 : ℤ) (now2 : ℚ),
      ((c.get q2 d2 tk2 now2).1).isSome → (c.get q2 d2 tk2 now2).2 = c) := by
  refine ⟨?_, ?_, ?_, ?_⟩
  · by_cases hfull : c.max_size ≤ c.cache.length
    · have hlen : c.cache.length = c.max_size := le_antisymm hbound hfull
      rcases hc : c.cache with _ | ⟨⟨ok, oe⟩, rest⟩
      · rw [hc] at hlen
        exact absurd hlen.symm (Nat.pos_iff_ne_zero.mp hpos)
      · show (dictSet (if c.max_size ≤ c.cache.length then _ else _) _ _).length ≤ _
        rw [if_pos hfull, hc]
        show (dictSet (dictDel ((ok, oe) :: rest) ok)
          (generate_cache_key q d tk) ⟨resp, now⟩).length ≤ _
        have hdel : dictDel ((ok, oe) :: rest) ok = rest := by
          rw [dictDel, if_pos rfl]
        rw [hdel]
        calc (dictSet rest (generate_cache_key q d tk)
                (⟨resp, now⟩ : CacheEntry ρ)).length
            ≤ rest.length + 1 := dictSet_length_le _ _ rest
          _ = c.cache.length := by rw [hc]; rfl
          _ = c.max_size := hlen
    · show (dictSet (if c.max_size ≤ c.cache.length then _ else _) _ _).length ≤ _
      rw [if_neg hfull]
      calc (dictSet c.cache (generate_cache_key q d tk)
              (⟨resp, now⟩ : CacheEntry ρ)).length
          ≤ c.cache.length + 1 := dictSet_length_le _ _ _
        _ ≤ c.max_size := Nat.succ_le_of_lt (lt_of_not_le hfull)
  · intro ok oe rest hc hlen
    have hfull : c.max_size ≤ c.cache.length := le_of_eq hlen.symm
    have hok : ok ∉ rest.map Prod.fst := by
      rw [hc] at hnodup
      exact (List.nodup_cons.mp hnodup).1
    have hsetc : (c.set q d tk resp now).cache =
        dictSet rest (generate_cache_key q d tk) ⟨resp, now⟩ := by
      show dictSet (if c.max_size ≤ c.cache.length then _ else _) _ _ = _
      rw [if_pos hfull, hc]
      show dictSet (dictDel ((ok, oe) :: rest) ok)
        (generate_cache_key q d tk) ⟨resp, now⟩ = _
      rw [dictDel, if_pos rfl]
    refine ⟨hsetc, ?_, ?_⟩
    · intro hne
      rw [hsetc, dictFind_dictSet_ne _ _ _ (fun h => hne h.symm) rest]
      exact dictFind_eq_none_of_not_mem ok rest hok
    · intro k' hk'ok hk'key
      rw [hsetc, dictFind_dictSet_ne _ _ _ hk'key rest, hc]
      have : ¬ ok = k' := fun h => hk'ok h.symm
      rw [dictFind, if_neg this]
  · intro hlt k' hk'
    have hfull : ¬ c.max_size ≤ c.cache.length := not_le.mpr hlt
    show dictFind (dictSet (if c.max_size ≤ c.cache.length then _ else _) _ _) k' = _
    rw [if_neg hfull]
    exact dictFind_dictSet_ne _ _ _ hk' c.cache
  · intro q2 d2 tk2 now2 hsome
    rcases hf : dictFind c.cache (generate_cache_key q2 d2 tk2) with _ | e
    · simp [ResponseCache.get, hf] at hsome ⊢
    · by_cases hexp : now2 < e.cached_at + c.ttl_hours
      · simp [ResponseCache.get, hf, hexp]
      · simp [ResponseCache.get, hf, hexp] at hsome

/-- Witness for `cache_fifo_eviction`: a 2-capacity cache at capacity; a
`set` with a third key evicts exactly the first-inserted key. -/
theorem cache_fifo_eviction_witness :
    dictFind ((ResponseCache.set
        ⟨[(generate_cache_key ['a'] none 1, ⟨(10 : ℕ), 0⟩),
          (generate_cache_key ['b'] none 1, ⟨20, 0⟩)], 2, 24⟩
        ['c'] none 1 30 5).cache)
      (generate_cache_key ['a'] none 1) = none :=
  ((cache_fifo_eviction
      ⟨[(generate_cache_key ['a'] none 1, ⟨(10 : ℕ), 0⟩),
        (generate_cache_key ['b'] none 1, ⟨20, 0⟩)], 2, 24⟩
      ['c'] none 1 30 5 (by decide) (by decide) (by decide)).2.1
    (generate_cache_key ['a'] none 1) ⟨10, 0⟩
    [(generate_cache_key ['b'] none 1, ⟨20, 0⟩)] rfl (by decide)).2.1 (by decide)

/-- C4: `get` semantics.  A present, unexpired entry is returned with the
store unchanged; a present, expired entry yields a miss and is removed
(other entries untouched); an absent key is a miss; a `set` followed by an
immediate `get` with identical parameters (positive TTL) returns the
stored response; a `get` at or after `cached_at + ttl` is a miss and
removes the entry. -/
theorem cache_get_semantics {ρ : Type} (c : ResponseCache ρ) (q : PyStr)
    (d : Option (List ℤ)) (tk : ℤ) (now : ℚ)
    (hnodup : (c.cache.map Prod.fst).Nodup) :
    (∀ e, dictFind c.cache (generate_cache_key q d tk) = some e →
      now < e.cached_at + c.ttl_hours →
      c.get q d tk now = (some e.response, c)) ∧
    (∀ e, dictFind c.cache (generate_cache_key q d tk) = some e →
      ¬ now < e.cached_at + c.ttl_hours →
      ((c.get q d tk now).1 = none ∧
       dictFind ((c.get q d tk now).2).cache (generate_cache_key q d tk) = none ∧
       (∀ k', k' ≠ generate_cache_key q d tk →
         dictFind ((c.get q d tk now).2).cache k' = dictFind c.cache k'))) ∧
    (dictFind c.cache (generate_cache_key q d tk) = none →
      c.get q d tk now = (none, c)) ∧
    (∀ resp : ρ, 0 < c.ttl_hours →
      (c.set q d tk resp now).get q d tk now =
        (some resp, c.set q d tk resp now)) ∧
    (∀ (resp : ρ) (t2 : ℚ), now + c.ttl_hours ≤ t2 →
      (((c.set q d tk resp now).get q d tk t2).1 = none ∧
       dictFind ((((c.set q d tk resp now).get q d tk t2).2).cache)
         (generate_cache_key q d tk) = none)) := by
  refine ⟨?_, ?_, ?_, ?_, ?_⟩
  · intro e hf hexp
    simp [ResponseCache.get, hf, hexp]
  · intro e hf hexp
    refine ⟨?_, ?_, ?_⟩
    · simp [ResponseCache.get, hf, hexp]
    · have hget2 : ((c.get q d tk now).2).cache =
          dictDel c.cache (generate_cache_key q d tk) := by
        simp [ResponseCache.get, hf, hexp]
      rw [hget2]
      exact dictFind_dictDel_self _ c.cache hnodup
    · intro k' hk'
      have hget2 : ((c.get q d tk now).2).cache =
          dictDel c.cache (generate_cache_key q d tk) := by
        simp [ResponseCache.get, hf, hexp]
      rw [hget2]
      exact dictFind_dictDel_ne _ _ hk' c.cache
  · intro hf
    simp [ResponseCache.get, hf]
  · intro resp httl
    have hf : dictFind ((c.set q d tk resp now).cache) (generate_cache_key q d tk) =
        some ⟨resp, now⟩ := dictFind_dictSet_self _ _ _
    have httl' : now < now + c.ttl_hours := by linarith
    have httlc : (c.set q d tk resp now).ttl_hours = c.ttl_hours := rfl
    simp [ResponseCache.get, hf, httlc, httl']
  · intro resp t2 ht2
    have hf : dictFind ((c.set q d tk resp now).cache) (generate_cache_key q d tk) =
        some ⟨resp, now⟩ := dictFind_dictSet_self _ _ _
    have hexp : ¬ t2 < now + c.ttl_hours := not_lt.mpr ht2
    have hnodup' : (((c.set q d tk resp now).cache).map Prod.fst).Nodup :=
      set_cache_keys_nodup c q d tk resp now hnodup
    have httlc : (c.set q d tk resp now).ttl_hours = c.ttl_hours := rfl
    constructor
    · simp [ResponseCache.get, hf, httlc, hexp]
    · have hget2 : ((((c.set q d tk resp now).get q d tk t2).2).cache) =
          dictDel ((c.set q d tk resp now).cache) (generate_cache_key q d tk) := by
        simp [ResponseCache.get, hf, httlc, hexp]
      rw [hget2]
      exact dictFind_dictDel_self _ _ hnodup'

/-- Witness for `cache_get_semantics`: set-then-get round trip and expiry
on a concrete cache. -/
theorem cache_get_semantics_witness :
    ((ResponseCache.set ⟨([] : List (CacheKeyData × CacheEntry ℕ)), 5, 24⟩
        ['a'] none 1 42 0).get ['a'] none 1 0) =
      (some 42, ResponseCache.set ⟨[], 5, 24⟩ ['a'] none 1 42 0) ∧
    (((ResponseCache.set ⟨([] : List (CacheKeyData × CacheEntry ℕ)), 5, 24⟩
        ['a'] none 1 42 0).get ['a'] none 1 25).1 = none) :=
  ⟨(cache_get_semantics ⟨[], 5, 24⟩ ['a'] none 1 0 (by decide)).2.2.2.1 42 (by norm_num),
   ((cache_get_semantics ⟨[], 5, 24⟩ ['a'] none 1 0 (by decide)).2.2.2.2 42 25
     (by norm_num)).1⟩

/-! ## Cache key determinism (C9) and the /ask flag suffix (C10) -/

theorem sorted_doc_ids_of_eq_pySorted (d : Option (List ℤ)) :
    sorted_doc_ids_of d = pySorted (d.getD []) := by
  rcases d with _ | l
  · rfl
  · by_cases hl : l = []
    · subst hl; rfl
    · simp [sorted_doc_ids_of, hl, Option.getD]

/-- C9 counterexample: `[1, 1, 2]` and `[1, 2]` are equal as sets of doc
ids (same members), yet the derived cache keys differ, because the source
sorts the raw lists with duplicates preserved before serializing. -/
theorem cache_key_set_equality_counterexample :
    ([(1 : ℤ), 1, 2].toFinset = [(1 : ℤ), 2].toFinset) ∧
    generate_cache_key ['q'] (some [1, 1, 2]) 5 ≠
      generate_cache_key ['q'] (some [1, 2]) 5 := by
  constructor
  · decide
  · decide

/-- C9 (amended): key derivation is deterministic under normalization —
for queries equal after lowercasing and stripping, doc-id lists equal as
multisets (equal up to reordering, with a missing/None list equal to an
empty one), and equal top_k, the derived cache keys are identical. -/
theorem cache_key_determinism (q1 q2 : PyStr) (d1 d2 : Option (List ℤ)) (tk : ℤ)
    (hq : pyStrip (pyLower q1) = pyStrip (pyLower q2))
    (hd : (d1.getD []).Perm (d2.getD [])) :
    generate_cache_key q1 d1 tk = generate_cache_key q2 d2 tk := by
  have hperm : pySorted (d1.getD []) = pySorted (d2.getD []) := by
    apply List.eq_of_perm_of_sorted (r := fun a b : ℤ => a ≤ b)
    · exact ((List.perm_insertionSort _ _).trans hd).trans
        (List.perm_insertionSort _ _).symm
    · exact List.sorted_insertionSort _ _
    · exact List.sorted_insertionSort _ _
  show CacheKeyData.mk _ _ _ = CacheKeyData.mk _ _ _
  rw [hq, sorted_doc_ids_of_eq_pySorted, sorted_doc_ids_of_eq_pySorted, hperm]

/-- Witness for `cache_key_determinism` at concrete inputs. -/
theorem cache_key_determinism_witness :
    generate_cache_key [' ', 'Q'] (some [2, 1]) 7 =
      generate_cache_key ['q', ' '] (some [1, 2]) 7 :=
  cache_key_determinism [' ', 'Q'] ['q', ' '] (some [2, 1]) (some [1, 2]) 7
    (by decide) (by decide)

/-- The cache-key suffix built from the request flags in the `/ask`
handler (src/app/routers/ask.py, lines 69–71). -/
def cache_key_suffix (use_hybrid use_reranker use_mmr : Bool) : PyStr :=
  (if use_hybrid then "_hybrid".toList else []) ++
  (if use_reranker then "_reranker".toList else []) ++
  (if use_mmr then "_mmr".toList else [])

/-- The effective cache key used by both the cache `get`
(src/app/routers/ask.py, lines 72–76) and the cache `set` (lines 223–228)
in the `/ask` handler: the flag suffix is appended to the preprocessed
query before key derivation. -/
def ask_effective_cache_key (preprocessed_query : PyStr)
    (use_hybrid use_reranker use_mmr : Bool)
    (doc_ids : Option (List ℤ)) (top_k : ℤ) : CacheKeyData :=
  generate_cache_key
    (preprocessed_query ++ cache_key_suffix use_hybrid use_reranker use_mmr)
    doc_ids top_k

theorem suffix_inj (b1 b2 b3 b1' b2' b3' : Bool)
    (h : cache_key_suffix b1 b2 b3 = cache_key_suffix b1' b2' b3') :
    (b1, b2, b3) = (b1', b2', b3') := by
  revert h
  revert b1 b2 b3 b1' b2' b3'
  decide

theorem suffix_lower (b1 b2 b3 : Bool) :
    pyLower (cache_key_suffix b1 b2 b3) = cache_key_suffix b1 b2 b3 := by
  revert b1 b2 b3
  decide

theorem suffix_nonspace (b1 b2 b3 : Bool) :
    ∀ c ∈ cache_key_suffix b1 b2 b3, pySpace c = false := by
  revert b1 b2 b3
  decide

theorem dropWhile_append_of_all_pos (p : Char → Bool) (t s : List Char)
    (ht : ∀ c ∈ t, p c = true) :
    (t ++ s).dropWhile p = s.dropWhile p := by
  induction t with
  | nil => rfl
  | cons c cs ih =>
    have hc : p c = true := ht c (List.mem_cons_self _ _)
    rw [List.cons_append, List.dropWhile_cons_of_pos hc]
    exact ih (fun x hx => ht x (List.mem_cons_of_mem _ hx))

theorem dropWhile_of_all_neg (p : Char → Bool) (s : List Char)
    (hs : ∀ c ∈ s, p c = false) :
    s.dropWhile p = s := by
  cases s with
  | nil => rfl
  | cons c cs =>
    have hc : ¬ p c = true := by
      rw [hs c (List.mem_cons_self _ _)]
      exact Bool.false_ne_true
    exact List.dropWhile_cons_of_neg hc

theorem pyLstrip_append_nonspace (a s : PyStr) (hsp : ∀ c ∈ s, pySpace c = false) :
    pyLstrip (a ++ s) = pyLstrip a ++ s := by
  induction a with
  | nil =>
    show (s.dropWhile pySpace) = [] ++ s
    rw [dropWhile_of_all_neg pySpace s hsp, List.nil_append]
  | cons c a ih =>
    by_cases hc : pySpace c = true
    · show ((c :: (a ++ s)).dropWhile pySpace) = (c :: a).dropWhile pySpace ++ s
      rw [List.dropWhile_cons_of_pos hc, List.dropWhile_cons_of_pos hc]
      exact ih
    · show ((c :: (a ++ s)).dropWhile pySpace) = (c :: a).dropWhile pySpace ++ s
      rw [List.dropWhile_cons_of_neg hc, List.dropWhile_cons_of_neg hc]
      rfl

theorem pyRstrip_append_nonspace (z s : PyStr) (hs : s ≠ [])
    (hsp : ∀ c ∈ s, pySpace c = false) :
    pyRstrip (z ++ s) = z ++ s := by
  rcases hrev : s.reverse with _ | ⟨c, cs⟩
  · exact absurd (List.reverse_eq_nil_iff.mp hrev) hs
  · have hc : pySpace c = false := by
      have : c ∈ s.reverse := by rw [hrev]; exact List.mem_cons_self _ _
      exact hsp c (List.mem_reverse.mp this)
    have hc' : ¬ pySpace c = true := by
      rw [hc]; exact Bool.false_ne_true
    have hdw : (z ++ s).reverse.dropWhile pySpace = (z ++ s).reverse := by
      rw [List.reverse_append, hrev, List.cons_append]
      exact List.dropWhile_cons_of_neg hc'
    show ((z ++ s).reverse.dropWhile pySpace).reverse = z ++ s
    rw [hdw, List.reverse_reverse]

theorem pyStrip_append_nonspace (a s : PyStr) (hs : s ≠ [])
    (hsp : ∀ c ∈ s, pySpace c = false) :
    pyStrip (a ++ s) = pyLstrip a ++ s := by
  show pyRstrip (pyLstrip (a ++ s)) = pyLstrip a ++ s
  rw [pyLstrip_append_nonspace a s hsp]
  exact pyRstrip_append_nonspace _ s hs hsp

/-- The whitespace tail separating `lstrip` from the full `strip`. -/
def wsTail (a : PyStr) : PyStr :=
  ((pyLstrip a).reverse.takeWhile pySpace).reverse

theorem pyLstrip_decomp (a : PyStr) :
    pyLstrip a = pyStrip a ++ wsTail a := by
  show pyLstrip a = ((pyLstrip a).reverse.dropWhile pySpace).reverse ++
    ((pyLstrip a).reverse.takeWhile pySpace).reverse
  rw [← List.reverse_append, List.takeWhile_append_dropWhile, List.reverse_reverse]

theorem wsTail_all_space (a : PyStr) : ∀ c ∈ wsTail a, pySpace c = true := by
  intro c hc
  have : c ∈ (pyLstrip a).reverse.takeWhile pySpace := List.mem_reverse.mp hc
  exact List.mem_takeWhile_imp this

theorem ws_cancel (t1 t2 s1 s2 : PyStr)
    (ht1 : ∀ c ∈ t1, pySpace c = true) (ht2 : ∀ c ∈ t2, pySpace c = true)
    (hs1 : ∀ c ∈ s1, pySpace c = false) (hs2 : ∀ c ∈ s2, pySpace c = false)
    (h : t1 ++ s1 = t2 ++ s2) : s1 = s2 := by
  have h' := congrArg (List.dropWhile pySpace) h
  rw [dropWhile_append_of_all_pos pySpace t1 s1 ht1,
      dropWhile_append_of_all_pos pySpace t2 s2 ht2,
      dropWhile_of_all_neg pySpace s1 hs1,
      dropWhile_of_all_neg pySpace s2 hs2] at h'
  exact h'

/-- C10: two `/ask` requests with identical normalized query text, the
same doc_ids and the same top_k, but differing in at least one of
`use_hybrid`, `use_reranker`, `use_mmr`, derive different cache keys on
both `get` and `set`, hence never share a cache entry. -/
theorem ask_flags_never_share_cache_entry (q1 q2 : PyStr)
    (d : Option (List ℤ)) (tk : ℤ) (h1 r1 m1 h2 r2 m2 : Bool)
    (hq : pyStrip (pyLower q1) = pyStrip (pyLower q2))
    (hf : (h1, r1, m1) ≠ (h2, r2, m2)) :
    ask_effective_cache_key q1 h1 r1 m1 d tk ≠
      ask_effective_cache_key q2 h2 r2 m2 d tk := by
  intro hkey
  apply hf
  apply suffix_inj
  have hq' : pyStrip (pyLower (q1 ++ cache_key_suffix h1 r1 m1)) =
      pyStrip (pyLower (q2 ++ cache_key_suffix h2 r2 m2)) :=
    congrArg CacheKeyData.query hkey
  rw [pyLower, List.map_append, pyLower, List.map_append] at hq'
  have hl1 : List.map Char.toLower (cache_key_suffix h1 r1 m1) =
      cache_key_suffix h1 r1 m1 := suffix_lower h1 r1 m1
  have hl2 : List.map Char.toLower (cache_key_suffix h2 r2 m2) =
      cache_key_suffix h2 r2 m2 := suffix_lower h2 r2 m2
  rw [hl1, hl2] at hq'
  by_cases hs1 : cache_key_suffix h1 r1 m1 = [] <;>
    by_cases hs2 : cache_key_suffix h2 r2 m2 = []
  · rw [hs1, hs2]
  · rw [hs1, List.append_nil] at hq'
    rw [pyStrip_append_nonspace _ _ hs2 (suffix_nonspace h2 r2 m2),
        pyLstrip_decomp] at hq'
    have hq2 : pyStrip (List.map Char.toLower q1) =
        pyStrip (List.map Char.toLower q2) := hq
    rw [hq2, List.append_assoc] at hq'
    have hlen := congrArg List.length hq'
    simp only [List.length_append] at hlen
    have : (cache_key_suffix h2 r2 m2).length = 0 := by omega
    exact absurd (List.length_eq_zero.mp this) hs2
  · rw [hs2, List.append_nil] at hq'
    rw [pyStrip_append_nonspace _ _ hs1 (suffix_nonspace h1 r1 m1),
        pyLstrip_decomp] at hq'
    have hq2 : pyStrip (List.map Char.toLower q1) =
        pyStrip (List.map Char.toLower q2) := hq
    rw [hq2, List.append_assoc] at hq'
    have hlen := congrArg List.length hq'
    simp only [List.length_append] at hlen
    have : (cache_key_suffix h1 r1 m1).length = 0 := by omega
    exact absurd (List.length_eq_zero.mp this) hs1
  · rw [pyStrip_append_nonspace _ _ hs1 (suffix_nonspace h1 r1 m1),
        pyStrip_append_nonspace _ _ hs2 (suffix_nonspace h2 r2 m2),
        pyLstrip_decomp, pyLstrip_decomp] at hq'
    have hq2 : pyStrip (List.map Char.toLower q1) =
        pyStrip (List.map Char.toLower q2) := hq
    rw [hq2, List.append_assoc, List.append_assoc] at hq'
    have hcancel := List.append_cancel_left hq'
    exact ws_cancel _ _ _ _ (wsTail_all_space _) (wsTail_all_space _)
      (suffix_nonspace h1 r1 m1) (suffix_nonspace h2 r2 m2) hcancel

/-- Witness for `ask_flags_never_share_cache_entry` at concrete inputs. -/
theorem ask_flags_never_share_cache_entry_witness :
    ask_effective_cache_key ['q'] true false false none 3 ≠
      ask_effective_cache_key ['q'] false false false none 3 :=
  ask_flags_never_share_cache_entry ['q'] ['q'] none 3 true false false
    false false false rfl (by decide)

/-! ## Cosine similarity — src/app/services/hybrid_search.py
`_cosine_similarity` and src/app/services/mmr.py `cosine_similarity_np` -/

/-- `sum(a * b for a, b in zip(vec1, vec2))` / `np.dot` on equal-length
vectors: the sum of pairwise products. -/
def dotList (v1 v2 : List ℝ) : ℝ := ((v1.zip v2).map (fun p => p.1 * p.2)).sum

/-- `sum(a * a for a in vec)` — the squared magnitude, whose square root
is `np.linalg.norm` / `** 0.5`. -/
def sumSq (v : List ℝ) : ℝ := (v.map (fun a => a * a)).sum

/-- Embedding of `cosine_similarity_np` (src/app/services/mmr.py, lines
9–30): dot product over the product of norms, 0 when either norm is 0,
and NO clamping of the result. -/
noncomputable def cosine_similarity_np (vec1 vec2 : List ℝ) : ℝ :=
  if Real.sqrt (sumSq vec1) = 0 ∨ Real.sqrt (sumSq vec2) = 0 then 0
  else dotList vec1 vec2 / (Real.sqrt (sumSq vec1) * Real.sqrt (sumSq vec2))

/-- Embedding of `_cosine_similarity` (src/app/services/hybrid_search.py,
lines 198–225): same formula but clamped into [0, 1] by
`max(0.0, min(1.0, similarity))`.  The string/array coercions on lines
204–213 are the identity on the numeric vectors modeled here. -/
noncomputable def cosine_similarity_hybrid (vec1 vec2 : List ℝ) : ℝ :=
  if Real.sqrt (sumSq vec1) = 0 ∨ Real.sqrt (sumSq vec2) = 0 then 0
  else max 0 (min 1 (dotList vec1 vec2 /
    (Real.sqrt (sumSq vec1) * Real.sqrt (sumSq vec2))))

theorem sumSq_nonneg (v : List ℝ) : 0 ≤ sumSq v := by
  apply List.sum_nonneg
  intro x hx
  rcases List.mem_map.mp hx with ⟨a, _, ha⟩
  rw [← ha]
  exact mul_self_nonneg a

theorem dotList_self (v : List ℝ) : dotList v v = sumSq v := by
  induction v with
  | nil => rfl
  | cons a t ih =>
    show (((a, a) :: t.zip t).map (fun p => p.1 * p.2)).sum =
      ((a :: t).map (fun x => x * x)).sum
    simp only [List.map_cons, List.sum_cons]
    rw [show (((t.zip t).map (fun p => p.1 * p.2)).sum : ℝ) = dotList t t from rfl, ih]
    rfl

theorem sumSq_pos (v : List ℝ) (a : ℝ) (ha : a ∈ v) (h0 : a ≠ 0) :
    0 < sumSq v := by
  have hmem : a * a ∈ v.map (fun x => x * x) := List.mem_map.mpr ⟨a, ha, rfl⟩
  have hle : a * a ≤ sumSq v := by
    apply List.single_le_sum _ _ hmem
    intro x hx
    rcases List.mem_map.mp hx with ⟨b, _, hb⟩
    rw [← hb]
    exact mul_self_nonneg b
  exact lt_of_lt_of_le (mul_self_pos.mpr h0) hle

theorem cosine_np_one_negone : cosine_similarity_np [(1 : ℝ)] [(-1 : ℝ)] = -1 := by
  have h1 : sumSq [(1 : ℝ)] = 1 := by simp [sumSq]
  have h2 : sumSq [(-1 : ℝ)] = 1 := by simp [sumSq]
  have hd : dotList [(1 : ℝ)] [(-1 : ℝ)] = -1 := by simp [dotList]
  rw [cosine_similarity_np, h1, h2, Real.sqrt_one, hd]
  rw [if_neg (by norm_num)]
  norm_num

/-- C2 counterexample: the MMR cosine (`cosine_similarity_np`) is not
clamped — on the vectors `[1]` and `[-1]` it returns −1, outside [0, 1]. -/
theorem cosine_np_out_of_range_counterexample :
    cosine_similarity_np [(1 : ℝ)] [(-1 : ℝ)] = -1 ∧
    ¬ (0 ≤ cosine_similarity_np [(1 : ℝ)] [(-1 : ℝ)]) := by
  refine ⟨cosine_np_one_negone, ?_⟩
  rw [cosine_np_one_negone]
  norm_num

/-- C2 (amended): the hybrid-search cosine is clamped and always lies in
[0, 1]; for both functions, the similarity of a non-zero vector with
itself is exactly 1 and a zero-magnitude operand gives exactly 0.  (The
MMR cosine is NOT clamped and can be negative.) -/
theorem cosine_similarity_props (v1 v2 v : List ℝ) :
    (0 ≤ cosine_similarity_hybrid v1 v2 ∧ cosine_similarity_hybrid v1 v2 ≤ 1) ∧
    ((∃ a ∈ v, a ≠ 0) →
      (cosine_similarity_hybrid v v = 1 ∧ cosine_similarity_np v v = 1)) ∧
    ((Real.sqrt (sumSq v1) = 0 ∨ Real.sqrt (sumSq v2) = 0) →
      (cosine_similarity_hybrid v1 v2 = 0 ∧ cosine_similarity_np v1 v2 = 0)) := by
  refine ⟨?_, ?_, ?_⟩
  · rw [cosine_similarity_hybrid]
    by_cases hz : Real.sqrt (sumSq v1) = 0 ∨ Real.sqrt (sumSq v2) = 0
    · rw [if_pos hz]
      exact ⟨le_refl 0, zero_le_one⟩
    · rw [if_neg hz]
      exact ⟨le_max_left 0 _, max_le zero_le_one (min_le_left 1 _)⟩
  · intro ⟨a, ha, h0⟩
    have hpos : 0 < sumSq v := sumSq_pos v a ha h0
    have hsq : Real.sqrt (sumSq v) ≠ 0 := ne_of_gt (Real.sqrt_pos.mpr hpos)
    have hval : dotList v v / (Real.sqrt (sumSq v) * Real.sqrt (sumSq v)) = 1 := by
      rw [dotList_self, Real.mul_self_sqrt (le_of_lt hpos)]
      exact div_self (ne_of_gt hpos)
    constructor
    · rw [cosine_similarity_hybrid, if_neg (not_or.mpr ⟨hsq, hsq⟩), hval]
      norm_num
    · rw [cosine_similarity_np, if_neg (not_or.mpr ⟨hsq, hsq⟩), hval]
  · intro hz
    constructor
    · rw [cosine_similarity_hybrid, if_pos hz]
    · rw [cosine_similarity_np, if_pos hz]

/-- Witness for `cosine_similarity_props` at concrete vectors. -/
theorem cosine_similarity_props_witness :
    cosine_similarity_hybrid [(3 : ℝ), 4] [(3 : ℝ), 4] = 1 ∧
    cosine_similarity_np [(3 : ℝ), 4] [(3 : ℝ), 4] = 1 ∧
    cosine_similarity_hybrid [(0 : ℝ)] [(5 : ℝ)] = 0 ∧
    cosine_similarity_np [(0 : ℝ)] [(5 : ℝ)] = 0 :=
  have hex : ∃ a ∈ [(3 : ℝ), 4], a ≠ 0 := ⟨3, by norm_num, by norm_num⟩
  have hz : Real.sqrt (sumSq [(0 : ℝ)]) = 0 ∨ Real.sqrt (sumSq [(5 : ℝ)]) = 0 :=
    Or.inl (by rw [show sumSq [(0 : ℝ)] = 0 by simp [sumSq], Real.sqrt_zero])
  ⟨((cosine_similarity_props [] [] [(3 : ℝ), 4]).2.1 hex).1,
   ((cosine_similarity_props [] [] [(3 : ℝ), 4]).2.1 hex).2,
   ((cosine_similarity_props [(0 : ℝ)] [(5 : ℝ)] []).2.2 hz).1,
   ((cosine_similarity_props [(0 : ℝ)] [(5 : ℝ)] []).2.2 hz).2⟩

/-! ## Cross-encoder reranking — src/app/services/reranker.py, rerank_chunks -/

/-- A candidate chunk as seen by `rerank_chunks`: its text, prior score,
and the fields the function writes (absent dict keys are `none`). -/
structure RrChunk where
  text : String
  score : Option ℚ
  reranker_score : Option ℚ
  original_score : Option ℚ
deriving DecidableEq

/-- Embedding of `rerank_chunks` (src/app/services/reranker.py, lines
23–74).  The external cross-encoder (`get_reranker().predict`) is the
`predict` argument; `none` models "model unavailable or invocation
raised", which the `except` turns into the fallback `chunks[:top_k]`.
On success every chunk zipped with a score receives `reranker_score`,
`original_score` (the prior score, 0.0 when absent) and `score`; the list
is then stably sorted descending by `reranker_score` and truncated.  If
the collaborator violates its same-length contract and leaves a chunk
without `reranker_score`, the sort key raises and the same `except`
returns the first `top_k` of the (by then updated) list. -/
def rerank_chunks (predict : List (String × String) → Option (List ℚ))
    (query : String) (chunks : List RrChunk) (top_k : ℕ) : List RrChunk :=
  if chunks = [] then []
  else
    match predict (chunks.map (fun chunk => (query, chunk.text))) with
    | none => chunks.take top_k
    | some scores =>
      let updated := (chunks.zip scores).map
          (fun p => { p.1 with
            reranker_score := some p.2
            original_score := some (p.1.score.getD 0)
            score := some p.2 }) ++ chunks.drop scores.length
      if updated.all (fun chunk => chunk.reranker_score.isSome) then
        (pySortDescBy (fun chunk => chunk.reranker_score.getD 0) updated).take top_k
      else updated.take top_k

/-- C6: reranker fallback.  For every query, non-empty candidate list and
top_k, if the external cross-encoder is unavailable or raises
(`predict = none`), `rerank_chunks` returns exactly the first `top_k`
chunks of the input in their original order. -/
theorem reranker_fallback (predict : List (String × String) → Option (List ℚ))
    (query : String) (chunks : List RrChunk) (top_k : ℕ)
    (hne : chunks ≠ [])
    (hfail : predict (chunks.map (fun chunk => (query, chunk.text))) = none) :
    rerank_chunks predict query chunks top_k = chunks.take top_k := by
  simp only [rerank_chunks, if_neg hne, hfail]

/-- Witness for `reranker_fallback`: a failing reranker on a 10-item
batch with `top_k = 6` returns exactly the first 6 items. -/
theorem reranker_fallback_witness :
    rerank_chunks (fun _ => none) "q"
      [⟨"c0", some 0, none, none⟩, ⟨"c1", some 1, none, none⟩,
       ⟨"c2", some 2, none, none⟩, ⟨"c3", some 3, none, none⟩,
       ⟨"c4", some 4, none, none⟩, ⟨"c5", some 5, none, none⟩,
       ⟨"c6", some 6, none, none⟩, ⟨"c7", some 7, none, none⟩,
       ⟨"c8", some 8, none, none⟩, ⟨"c9", some 9, none, none⟩] 6 =
      [⟨"c0", some 0, none, none⟩, ⟨"c1", some 1, none, none⟩,
       ⟨"c2", some 2, none, none⟩, ⟨"c3", some 3, none, none⟩,
       ⟨"c4", some 4, none, none⟩, ⟨"c5", some 5, none, none⟩] :=
  (reranker_fallback (fun _ => none) "q"
      [⟨"c0", some 0, none, none⟩, ⟨"c1", some 1, none, none⟩,
       ⟨"c2", some 2, none, none⟩, ⟨"c3", some 3, none, none⟩,
       ⟨"c4", some 4, none, none⟩, ⟨"c5", some 5, none, none⟩,
       ⟨"c6", some 6, none, none⟩, ⟨"c7", some 7, none, none⟩,
       ⟨"c8", some 8, none, none⟩, ⟨"c9", some 9, none, none⟩] 6
      (List.cons_ne_nil _ _) rfl).trans (by rfl)

/-! ## MMR diversification — src/app/services/mmr.py, mmr_diversify -/

/-- A candidate chunk as seen by `mmr_diversify`: optional embedding
(`chunk.get("embedding")`), prior score (`chunk.get("score", 0.0)`), and
the `mmr_score` the function writes. -/
structure MChunk where
  embedding : Option (List ℝ)
  score : Option ℝ
  mmr_score : Option ℝ

/-- Python `max` over a non-empty list of reals (`max(similarities)`). -/
noncomputable def pyMaxR (x : ℝ) (xs : List ℝ) : ℝ := xs.foldl max x

/-- The per-candidate body of the selection loop in `mmr_diversify`
(src/app/services/mmr.py, lines 74–97): a missing or empty embedding
appends the prior score itself (`chunk.get("score", 0.0)`); otherwise
`λ·relevance − (1−λ)·max-similarity-to-selected`, where the second factor
is 0 while nothing is selected and selected chunks contribute through
`s.get("embedding", [])`. -/
noncomputable def mmrScoreOf (query_embedding : List ℝ) (lambda_param : ℝ)
    (selected : List MChunk) (chunk : MChunk) : ℝ :=
  match chunk.embedding with
  | none => chunk.score.getD 0
  | some chunk_emb =>
    if chunk_emb = [] then chunk.score.getD 0
    else
      let relevance := cosine_similarity_np query_embedding chunk_emb
      let max_similarity : ℝ :=
        match selected with
        | [] => 0
        | s :: rest =>
          pyMaxR (cosine_similarity_np chunk_emb (s.embedding.getD []))
            (rest.map (fun t => cosine_similarity_np chunk_emb (t.embedding.getD [])))
      lambda_param * relevance - (1 - lambda_param) * max_similarity

/-- `np.argmax` inner scan: index of the first maximum, strict `>` to
replace the running best. -/
noncomputable def np_argmax_go : ℕ → ℝ → ℕ → List ℝ → ℕ
  | best, _, _, [] => best
  | best, bv, i, y :: ys =>
    if bv < y then np_argmax_go i y (i + 1) ys else np_argmax_go best bv (i + 1) ys

/-- `np.argmax` on a non-empty list (`np.argmax([])` raises). -/
noncomputable def np_argmax : List ℝ → ℕ
  | [] => 0
  | x :: xs => np_argmax_go 0 x 1 xs

theorem np_argmax_go_lt (ys : List ℝ) :
    ∀ (best : ℕ) (bv : ℝ) (i : ℕ), best < i →
      np_argmax_go best bv i ys < i + ys.length := by
  induction ys with
  | nil =>
    intro best bv i h
    simpa [np_argmax_go] using h
  | cons y ys ih =>
    intro best bv i h
    rw [np_argmax_go]
    by_cases hc : bv < y
    · rw [if_pos hc]
      have h2 := ih i y (i + 1) (Nat.lt_succ_self i)
      rw [List.length_cons]
      omega
    · rw [if_neg hc]
      have h2 := ih best bv (i + 1) (Nat.lt_succ_of_lt h)
      rw [List.length_cons]
      omega

theorem np_argmax_lt (l : List ℝ) (h : l.isEmpty = false) :
    np_argmax l < l.length := by
  cases l with
  | nil => simp [List.isEmpty] at h
  | cons x xs =>
    have h2 := np_argmax_go_lt xs 0 x 1 Nat.zero_lt_one
    rw [np_argmax, List.length_cons]
    omega

theorem np_argmax_lt_of_map {α : Type} (f : α → ℝ) (l : List α)
    (h : l.isEmpty = false) : np_argmax (l.map f) < l.length := by
  have hlen : (l.map f).length = l.length := List.length_map _ _
  have hne : (l.map f).isEmpty = false := by
    cases l with
    | nil => simp [List.isEmpty] at h
    | cons a t => simp
  have h2 := np_argmax_lt (l.map f) hne
  rw [hlen] at h2
  exact h2

/-- The `while len(selected) < top_k and remaining:` loop of
`mmr_diversify` (src/app/services/mmr.py, lines 71–103): score every
remaining candidate against the current selection, pop the
`np.argmax`-indexed best, record its `mmr_score`, append it to the
selection. -/
noncomputable def mmrLoop (query_embedding : List ℝ) (lambda_param : ℝ) (top_k : ℕ)
    (selected remaining : List MChunk) : List MChunk :=
  if h : selected.length < top_k ∧ remaining.isEmpty = false then
    let mmr_scores := remaining.map (mmrScoreOf query_embedding lambda_param selected)
    let best_idx := np_argmax mmr_scores
    have hlt : best_idx < remaining.length :=
      np_argmax_lt_of_map (mmrScoreOf query_embedding lambda_param selected)
        remaining h.2
    let best_chunk := remaining.get ⟨best_idx, hlt⟩
    let best_chunk2 := { best_chunk with
      mmr_score := some (mmr_scores.get ⟨best_idx, by
        rw [List.length_map]; exact hlt⟩) }
    mmrLoop query_embedding lambda_param top_k (selected ++ [best_chunk2])
      (remaining.eraseIdx best_idx)
  else selected
termination_by remaining.length
decreasing_by
  simp_wf
  have h2 : np_argmax
      (List.map (mmrScoreOf query_embedding lambda_param selected) remaining) <
      remaining.length :=
    np_argmax_lt_of_map (mmrScoreOf query_embedding lambda_param selected)
      remaining h.2
  have h3 := List.length_eraseIdx_add_one h2
  omega

/-- Embedding of `mmr_diversify` (src/app/services/mmr.py, lines 33–113):
empty candidates or empty query embedding return `chunks[:top_k]`; at
most `top_k` candidates are returned unchanged; otherwise the greedy MMR
loop runs (its `except` fallback is unreachable in this model). -/
noncomputable def mmr_diversify (chunks : List MChunk) (query_embedding : List ℝ)
    (top_k : ℕ) (lambda_param : ℝ) : List MChunk :=
  if chunks.isEmpty ∨ query_embedding.isEmpty then chunks.take top_k
  else if chunks.length ≤ top_k then chunks
  else mmrLoop query_embedding lambda_param top_k [] chunks

/-- C8 counterexample: in a real MMR downselection (2 candidates,
`top_k = 1`, non-empty query embedding, λ = 0.7) the embedding-less
candidate with prior score 1 is selected and its recorded `mmr_score` is
its prior score 1 — not λ · 1 = 0.7 as the claim predicts. -/
theorem mmr_missing_embedding_counterexample :
    mmr_diversify [⟨none, some 1, none⟩, ⟨some [-1], some 0, none⟩] [1] 1 (7/10) =
      [⟨none, some 1, some 1⟩] ∧
    (1 : ℝ) ≠ (7/10) * 1 := by
  constructor
  · rw [mmr_diversify]
    rw [if_neg (by simp)]
    rw [if_neg (by norm_num)]
    have hA : mmrScoreOf [1] (7/10) [] ⟨none, some 1, none⟩ = 1 := by
      simp [mmrScoreOf]
    have hB : mmrScoreOf [1] (7/10) [] ⟨some [-1], some 0, none⟩ = -(7/10) := by
      simp [mmrScoreOf, cosine_np_one_negone]
    rw [mmrLoop]
    rw [dif_pos (by simp)]
    simp only [List.map_cons, List.map_nil, hA, hB]
    have hargmax : np_argmax [(1 : ℝ), -(7/10)] = 0 := by
      rw [np_argmax, np_argmax_go]
      rw [if_neg (by norm_num), np_argmax_go]
    simp only [hargmax]
    simp only [List.get, List.eraseIdx]
    rw [mmrLoop]
    simp [hA]
  · norm_num

/-- C8 (amended): during MMR selection, a candidate that has no embedding
(or an empty one) receives as its per-iteration `mmr_score` its prior
score directly (`chunk.get("score", 0.0)`) — the λ weighting and the
similarity penalty are both skipped, so its score is NOT λ times the
prior score unless λ = 1 or the score is 0. -/
theorem mmr_missing_embedding_fallback (query_embedding : List ℝ)
    (lambda_param : ℝ) (selected : List MChunk) (chunk : MChunk)
    (h : chunk.embedding = none ∨ chunk.embedding = some []) :
    mmrScoreOf query_embedding lambda_param selected chunk =
      chunk.score.getD 0 := by
  rcases h with h | h <;> simp [mmrScoreOf, h]

/-- Witness for `mmr_missing_embedding_fallback` at a concrete chunk. -/
theorem mmr_missing_embedding_fallback_witness :
    mmrScoreOf [1] (7/10) [] ⟨none, some 1, none⟩ = 1 :=
  mmr_missing_embedding_fallback [1] (7/10) [] ⟨none, some 1, none⟩ (Or.inl rfl)

end KbApi
